import Mathlib

/-!
Verification development for the scrAInshots screenshot viewer.

The definitions below are shallow embeddings of the TypeScript functions in
`screenshot-viewer/src/app/page.tsx`, `screenshot-viewer/src/components/WordCloud.tsx`,
`screenshot-viewer/src/components/UnifiedTimeline.tsx`,
`screenshot-viewer/src/components/TimeHistogram.tsx` and the batch-processing
page.  Strings are Lean `String`s; JavaScript `Date` values are modelled as
integer timestamps (epoch milliseconds); JavaScript numbers used in divisions
are modelled as rationals.
-/

namespace ScrAInshots

/-! ### JavaScript string primitives -/

/-- Model of `String.prototype.toLowerCase` on one character (ASCII range,
which is all the comparisons in the source rely on): `A`–`Z` maps to `a`–`z`,
everything else is unchanged. -/
def jsCharToLower (c : Char) : Char :=
  if 65 ≤ c.toNat ∧ c.toNat ≤ 90 then Char.ofNat (c.toNat + 32) else c

/-- Model of `String.prototype.toLowerCase`. -/
def jsToLower (s : String) : String :=
  ⟨s.data.map jsCharToLower⟩

/-- Test `startsWithSeq hay needle` : the list `hay` starts with `needle`. -/
def startsWithSeq [DecidableEq α] : List α → List α → Bool
  | _, [] => true
  | [], _ :: _ => false
  | a :: as, b :: bs => a = b && startsWithSeq as bs

/-- Test `containsSeq hay needle` : `needle` occurs contiguously inside `hay`.
Model of `String.prototype.includes` (on the underlying character lists). -/
def containsSeq [DecidableEq α] : List α → List α → Bool
  | [], needle => needle.isEmpty
  | a :: as, needle => startsWithSeq (a :: as) needle || containsSeq as needle

/-- Model of `hay.includes(needle)` for JavaScript strings. -/
def jsIncludes (hay needle : String) : Bool :=
  containsSeq hay.data needle.data

/-! ### The `Screenshot` record of `page.tsx` (the fields the filters read) -/

structure Screenshot where
  id : String
  content : String
  /-- Field `metadata.filename`; this is the string `page.tsx` renders as the
  card/dialog title of the screenshot. -/
  filename : String
  /-- Field `metadata.created_time`, parsed to an instant (epoch milliseconds). -/
  created_time : Int
  deriving DecidableEq, Repr

/-! ### `filterScreenshots` (page.tsx lines 65–101), one stage per guard -/

/-- The `searchQuery` stage: `if (searchQuery) filtered = filtered.filter(s =>
s.content.toLowerCase().includes(q.toLowerCase()) ||
s.metadata.filename.toLowerCase().includes(q.toLowerCase()))`. -/
def searchFilter (q : String) (ss : List Screenshot) : List Screenshot :=
  if q = "" then ss
  else ss.filter fun s =>
    jsIncludes (jsToLower s.content) (jsToLower q) ||
    jsIncludes (jsToLower s.filename) (jsToLower q)

/-- The `selectedDateRange` stage: `filtered.filter(s => created >= start &&
created <= end)`. -/
def rangeFilter (rangeStart rangeEnd : Int) (ss : List Screenshot) : List Screenshot :=
  ss.filter fun s =>
    decide (rangeStart ≤ s.created_time) && decide (s.created_time ≤ rangeEnd)

/-- The word-cloud stage: `if (wordCloudFilter.length > 0) filtered =
filtered.filter(s => wordCloudFilter.every(word =>
s.content.toLowerCase().includes(word.toLowerCase())))`. -/
def conceptFilter (words : List String) (ss : List Screenshot) : List Screenshot :=
  if words = [] then ss
  else ss.filter fun s =>
    words.all fun w => jsIncludes (jsToLower s.content) (jsToLower w)

/-- The whole `filterScreenshots` pipeline (with a histogram-selected range). -/
def filterScreenshots (q : String) (range : Option (Int × Int))
    (words : List String) (ss : List Screenshot) : List Screenshot :=
  let afterSearch := searchFilter q ss
  let afterRange := match range with
    | none => afterSearch
    | some (a, b) => rangeFilter a b afterSearch
  conceptFilter words afterRange

/-! ### `handleWordClick` (page.tsx lines 144–156) -/

/-- Handler `handleWordClick(word, isShiftClick)` as a pure function of the pending
word-cloud filter state: shift-click toggles membership (`prev.includes(word)
? prev.filter(w => w !== word) : [...prev, word]`), a plain click replaces the
filter with `[word]`. -/
def handleWordClick (prev : List String) (word : String) (isShiftClick : Bool) :
    List String :=
  if isShiftClick then
    if prev.contains word then prev.filter (fun w => w ≠ word)
    else prev ++ [word]
  else [word]

/-! ### `WordCloud.words` (WordCloud.tsx lines 24–45) -/

/-- The JavaScript regular-expression class `\w` (no unicode flag):
`[A-Za-z0-9_]`. -/
def isWordChar (c : Char) : Bool :=
  (65 ≤ c.toNat && c.toNat ≤ 90) || (97 ≤ c.toNat && c.toNat ≤ 122) ||
    (48 ≤ c.toNat && c.toNat ≤ 57) || c = '_'

/-- The whitespace class `\s` (the ASCII part, which covers the strings the
viewer handles). -/
def isWsChar (c : Char) : Bool :=
  c = ' ' || c = '\t' || c = '\n' || c = '\r'

/-- Cleaning step `text.toLowerCase().replace(/[^\w\s]/g, \x27\x27)`: lower-case, then delete every
character that is neither a word character nor whitespace. -/
def cleanChars (text : String) : List Char :=
  (jsToLower text).data.filter fun c => isWordChar c || isWsChar c

/-- Split a character list at whitespace characters.  the JavaScript
`split(/\s+/)` collapses whitespace runs where this splits at every whitespace
character; the difference is only extra empty tokens, all of which the
`word.length > 3` guard below discards, so the resulting counts agree. -/
def splitAtWs : List Char → List (List Char)
  | [] => [[]]
  | c :: cs =>
    if isWsChar c then [] :: splitAtWs cs
    else
      match splitAtWs cs with
      | [] => [[c]]
      | t :: ts => (c :: t) :: ts

/-- Tokenization `cleanText.split(/\s+/)` applied to the cleaned text. -/
def tokenize (text : String) : List String :=
  (splitAtWs (cleanChars text)).map fun cs => ⟨cs⟩

/-- The `stopWords` set of `WordCloud.tsx`. -/
def stopWords : List String :=
  ["the", "is", "at", "which", "on", "a", "an", "and", "or", "but",
   "in", "with", "to", "for", "of", "as", "by", "that", "this",
   "it", "from", "be", "are", "been", "was", "were", "being"]

/-- The guard of the counting loop: `word.length > 3 && !stopWords.has(word)`. -/
def keepWord (w : String) : Bool :=
  3 < w.length && !stopWords.contains w

/-- Insert one occurrence of key `k` into an association list, preserving the
insertion order of first occurrences — the model of `record[k] =
(record[k] || 0) + 1` on a JavaScript object together with `Object.entries`. -/
def bumpKey [DecidableEq κ] : List (κ × Nat) → κ → List (κ × Nat)
  | [], k => [(k, 1)]
  | (k', v) :: rest, k =>
    if k' = k then (k', v + 1) :: rest else (k', v) :: bumpKey rest k

/-- The `wordCount` record of `WordCloud.words`, as an association list in
key-insertion order (`Object.entries` order for the non-numeric keys the
cloud produces). -/
def wordCounts (text : String) : List (String × Nat) :=
  (tokenize text).foldl (fun acc w => if keepWord w then bumpKey acc w else acc) []

/-- The comparator `(a, b) => b.value - a.value`: `a` may stay before `b`
exactly when the count of `a` is at least the count of `b`. -/
def wcDescRel (a b : String × Nat) : Prop := b.2 ≤ a.2

instance : DecidableRel wcDescRel := fun a b => Nat.decLe b.2 a.2

instance : IsTotal (String × Nat) wcDescRel := ⟨fun a b => Nat.le_total b.2 a.2⟩

instance : IsTrans (String × Nat) wcDescRel := ⟨fun _ _ _ h1 h2 => Nat.le_trans h2 h1⟩

/-- Computation `WordCloud.words`: count, sort by descending count (JavaScript
`Array.prototype.sort` is stable, which the stable `insertionSort` models),
then `slice(0, 50)`. -/
def wordCloudWords (text : String) : List (String × Nat) :=
  ((wordCounts text).insertionSort wcDescRel).take 50

/-! ### `UnifiedTimeline.filteredItems` (UnifiedTimeline.tsx lines 85–99) -/

structure TimelineItem where
  id : String
  source_type : String
  concept_categories : List String
  /-- Field `timestamp`, parsed (`new Date(ts).getTime()`, epoch milliseconds). -/
  timestamp : Int
  deriving DecidableEq, Repr

/-- The comparator `(a, b) => new Date(b.timestamp).getTime() - new
Date(a.timestamp).getTime()`. -/
def tlDescRel (a b : TimelineItem) : Prop := b.timestamp ≤ a.timestamp

instance : DecidableRel tlDescRel := fun a b => Int.decLe b.timestamp a.timestamp

instance : IsTotal TimelineItem tlDescRel := ⟨fun a b => Int.le_total b.timestamp a.timestamp⟩

instance : IsTrans TimelineItem tlDescRel := ⟨fun _ _ _ h1 h2 => Int.le_trans h2 h1⟩

/-- Computation `filteredItems`: filter by the selected source, then by the selected
category, then sort newest-first. -/
def filteredItems (items : List TimelineItem)
    (selectedSource selectedCategory : Option String) : List TimelineItem :=
  let bySource := match selectedSource with
    | none => items
    | some src => items.filter fun it => it.source_type = src
  let byCategory := match selectedCategory with
    | none => bySource
    | some cat => bySource.filter fun it => it.concept_categories.contains cat
  byCategory.insertionSort tlDescRel

/-! ### `TimeHistogram` daily counts (TimeHistogram.tsx lines 26–60, 132–136) -/

/-- One entry of the `screenshots` prop of `TimeHistogram` (`created_at`
parsed to epoch milliseconds). -/
structure HistShot where
  id : String
  created_at : Int
  deriving DecidableEq, Repr

def msPerDay : Int := 86400000

/-- The calendar day of an instant (`format(startOfDay(date), yyyy-MM-dd)`
groups instants by day; floor division by the day length is that grouping,
with the day index standing for the `yyyy-MM-dd` key). -/
def dayOf (t : Int) : Int := t / msPerDay

/-- Value `minDate` after the `forEach` loop (the fold starts from
`screenshots[0]`). -/
def minCreated (s0 : HistShot) (rest : List HistShot) : Int :=
  rest.foldl (fun m s => min m s.created_at) s0.created_at

/-- Value `maxDate` after the `forEach` loop. -/
def maxCreated (s0 : HistShot) (rest : List HistShot) : Int :=
  rest.foldl (fun m s => max m s.created_at) s0.created_at

/-- The per-day tally built by the `forEach` loop
(`counts[dayKey] = (counts[dayKey] || 0) + 1`). -/
def rawDayCounts (ss : List HistShot) : List (Int × Nat) :=
  ss.foldl (fun acc s => bumpKey acc (dayOf s.created_at)) []

/-- Model of `eachDayOfInterval`: the consecutive day indices from `a` to `b`. -/
def eachDay (a b : Int) : List Int :=
  (List.range (b - a + 1).toNat).map fun i => a + Int.ofNat i

/-- Whether the association list already has key `d`. -/
def hasKey [DecidableEq κ] (l : List (κ × Nat)) (k : κ) : Bool :=
  l.any fun p => p.1 = k

/-- The fill loop: `days.forEach(day => { if (!counts[dayKey]) counts[dayKey]
 = 0 })` — re-writing an existing `0` does not change the map, so only the
missing keys are appended. -/
def fillDays (counts : List (Int × Nat)) (days : List Int) : List (Int × Nat) :=
  days.foldl (fun acc d => if hasKey acc d then acc else acc ++ [(d, 0)]) counts

/-- Map `dailyCounts` for a non-empty screenshot list. -/
def dailyCounts (s0 : HistShot) (rest : List HistShot) : List (Int × Nat) :=
  fillDays (rawDayCounts (s0 :: rest))
    (eachDay (dayOf (minCreated s0 rest)) (dayOf (maxCreated s0 rest)))

/-- Value `maxCount = Math.max(...Object.values(counts))` (the values list is
non-empty whenever the screenshot list is). -/
def maxCount (s0 : HistShot) (rest : List HistShot) : Nat :=
  ((dailyCounts s0 rest).map Prod.snd).foldl max 0

/-- The bar height of one day (TimeHistogram.tsx line 135):
`maxCount > 0 ? (count / maxCount) * 100 : 0`. -/
def barHeight (count maxCnt : Nat) : ℚ :=
  if 0 < maxCnt then ((count : ℚ) / (maxCnt : ℚ)) * 100 else 0

/-! ### `calculateProcessingRate` (batch-processing page, lines 112–116) -/

/-- Rate `if (!startTime || status.processed === 0) return 0; const elapsedHours =
(now - startTime) / 3600000; return processed / elapsedHours`. -/
def calculateProcessingRate (startTime : Option Int) (processed : Nat)
    (now : Int) : ℚ :=
  match startTime with
  | none => 0
  | some t =>
    if processed = 0 then 0
    else (processed : ℚ) / (((now - t : Int) : ℚ) / 3600000)

/-! ### Concrete items for the worked examples of the spec -/

/-- Item `A` of the AND-filter example of the spec: content made of the concepts
`x` and `y`. -/
def scrA : Screenshot := ⟨"A", "x y", "a.png", 0⟩

/-- Item `B` of the AND-filter example of the spec: content made of the concept `x`. -/
def scrB : Screenshot := ⟨"B", "x", "b.png", 0⟩

/-- Item `C` of the AND-filter example of the spec: content made of the concepts
`x`, `y` and `z`. -/
def scrC : Screenshot := ⟨"C", "x y z", "c.png", 0⟩

/-- A screenshot on day 0 for the C9 witness. -/
def histA : HistShot := ⟨"h1", 0⟩

/-- A screenshot two days later for the C9 witness, leaving day 1 empty. -/
def histB : HistShot := ⟨"h2", 2 * 86400000⟩

/-- C1: the word-cloud filter has AND semantics — with a non-empty filter
list, a screenshot survives `conceptFilter` exactly when every filter word
occurs case-insensitively in its content; on the example items `A{x,y}`, `B{x}`,
`C{x,y,z}` example, filtering by `["x", "y"]` returns exactly `A` and `C`. -/
theorem concept_and_filter_correct :
    (∀ (ss : List Screenshot) (words : List String), words ≠ [] →
      ∀ s : Screenshot, s ∈ conceptFilter words ss ↔
        s ∈ ss ∧ ∀ w ∈ words, jsIncludes (jsToLower s.content) (jsToLower w) = true) ∧
    conceptFilter ["x", "y"] [scrA, scrB, scrC] = [scrA, scrC] := by
  constructor
  · intro ss words hw s
    unfold conceptFilter
    rw [if_neg hw]
    simp [List.mem_filter, List.all_eq_true]
  · decide

/-- Witness for C1 at the concrete example of the spec. -/
theorem concept_and_filter_correct_witness :
    scrB ∈ conceptFilter ["x", "y"] [scrA, scrB, scrC] ↔
      scrB ∈ [scrA, scrB, scrC] ∧
        ∀ w ∈ ["x", "y"], jsIncludes (jsToLower scrB.content) (jsToLower w) = true :=
  concept_and_filter_correct.1 [scrA, scrB, scrC] ["x", "y"] (by decide) scrB

/-- C3: the histogram-selected date-range filter keeps exactly the
screenshots whose creation instant `t` satisfies `start ≤ t ≤ end`, both
bounds inclusive; in particular an item timestamped exactly at either bound
of a well-formed range is kept. -/
theorem range_filter_inclusive :
    ∀ (ss : List Screenshot) (a b : Int),
      (∀ s : Screenshot, s ∈ rangeFilter a b ss ↔
        s ∈ ss ∧ a ≤ s.created_time ∧ s.created_time ≤ b) ∧
      (a ≤ b → ∀ s ∈ ss, s.created_time = a ∨ s.created_time = b →
        s ∈ rangeFilter a b ss) := by
  intro ss a b
  have key : ∀ s : Screenshot, s ∈ rangeFilter a b ss ↔
      s ∈ ss ∧ a ≤ s.created_time ∧ s.created_time ≤ b := by
    intro s
    simp [rangeFilter, List.mem_filter]
  refine ⟨key, fun hab s hs h => (key s).2 ⟨hs, ?_⟩⟩
  rcases h with h | h <;> constructor <;> omega

/-- Witness for C3: an item created exactly at the start bound is kept. -/
theorem range_filter_inclusive_witness :
    scrA ∈ rangeFilter 0 10 [scrA] :=
  (range_filter_inclusive [scrA] 0 10).2 (by decide) scrA (by decide) (Or.inl rfl)

/-- C7: the text search keeps exactly the screenshots whose content or
filename (the string the page renders as the title of the item) contains the
query case-insensitively, and two queries that agree after lower-casing
produce the same result list. -/
theorem search_filter_correct :
    (∀ (ss : List Screenshot) (q : String), q ≠ "" →
      ∀ s : Screenshot, s ∈ searchFilter q ss ↔
        s ∈ ss ∧ (jsIncludes (jsToLower s.content) (jsToLower q) = true ∨
          jsIncludes (jsToLower s.filename) (jsToLower q) = true)) ∧
    (∀ (ss : List Screenshot) (q q' : String), jsToLower q = jsToLower q' →
      searchFilter q ss = searchFilter q' ss) := by
  constructor
  · intro ss q hq s
    unfold searchFilter
    rw [if_neg hq]
    simp [List.mem_filter]
  · intro ss q q' hqq
    have hdata : q.data.map jsCharToLower = q'.data.map jsCharToLower := by
      have : (jsToLower q).data = (jsToLower q').data := by rw [hqq]
      simpa [jsToLower] using this
    have hempty : q = "" ↔ q' = "" := by
      constructor <;> intro h <;> subst h
      · have : q'.data.map jsCharToLower = [] := hdata.symm
        rcases q' with ⟨l⟩
        simp only [List.map_eq_nil_iff] at this
        simp [this]
      · have : q.data.map jsCharToLower = [] := hdata
        rcases q with ⟨l⟩
        simp only [List.map_eq_nil_iff] at this
        simp [this]
    unfold searchFilter
    rw [hqq]
    by_cases h : q = ""
    · rw [if_pos h, if_pos (hempty.1 h)]
    · rw [if_neg h, if_neg (fun hc => h (hempty.2 hc))]

/-- Witness for C7: searching `"X"` in the example list matches `A` (its
content contains `x`), with hypotheses discharged at the concrete query. -/
theorem search_filter_correct_witness :
    scrA ∈ searchFilter "X" [scrA] ↔
      scrA ∈ [scrA] ∧ (jsIncludes (jsToLower scrA.content) (jsToLower "X") = true ∨
        jsIncludes (jsToLower scrA.filename) (jsToLower "X") = true) :=
  search_filter_correct.1 [scrA] "X" (by decide) scrA

/-- C6: whatever source and category are selected, the timeline list the
component displays is sorted by timestamp descending (newest first). -/
theorem filtered_items_sorted_desc :
    ∀ (items : List TimelineItem) (src cat : Option String),
      (filteredItems items src cat).Pairwise
        (fun a b => b.timestamp ≤ a.timestamp) := by
  intro items src cat
  unfold filteredItems
  exact List.sorted_insertionSort tlDescRel _

/-- C8: the degenerate cases of both normalizations are guarded — a zero
`maxCount` yields bar height `0` rather than a division by zero, any day
with `count ≤ maxCount` gets a height in `[0, 100]`, and the processing
rate is `0` whenever nothing has been processed. -/
theorem degenerate_normalization_guarded :
    (∀ c : Nat, barHeight c 0 = 0) ∧
    (∀ c m : Nat, c ≤ m → 0 ≤ barHeight c m ∧ barHeight c m ≤ 100) ∧
    (∀ (st : Option Int) (now : Int), calculateProcessingRate st 0 now = 0) := by
  refine ⟨fun c => by simp [barHeight], fun c m hcm => ?_, fun st now => ?_⟩
  · unfold barHeight
    by_cases hm : 0 < m
    · rw [if_pos hm]
      have hm' : (0 : ℚ) < (m : ℚ) := by exact_mod_cast hm
      have h1 : (c : ℚ) / (m : ℚ) ≤ 1 := by
        rw [div_le_one hm']
        exact_mod_cast hcm
      have h0 : (0 : ℚ) ≤ (c : ℚ) / (m : ℚ) :=
        div_nonneg (by positivity) (le_of_lt hm')
      constructor
      · positivity
      · nlinarith
    · rw [if_neg hm]
      norm_num
  · cases st <;> simp [calculateProcessingRate]

/-- Witness for C8: the bounds at the concrete day count `1` of `2`. -/
theorem degenerate_normalization_guarded_witness :
    0 ≤ barHeight 1 2 ∧ barHeight 1 2 ≤ 100 :=
  degenerate_normalization_guarded.2.1 1 2 (by decide)

/-- Shift-clicking a word that is not in the pending filter twice restores
the filter exactly. -/
lemma double_toggle_of_not_mem (prev : List String) (w : String) (hw : w ∉ prev) :
    handleWordClick (handleWordClick prev w true) w true = prev := by
  have hfirst : handleWordClick prev w true = prev ++ [w] := by
    simp [handleWordClick, hw]
  rw [hfirst]
  have hsecond : handleWordClick (prev ++ [w]) w true =
      (prev ++ [w]).filter (fun a => a ≠ w) := by
    simp [handleWordClick]
  rw [hsecond, List.filter_append]
  simp only [ne_eq, List.filter_cons, decide_not, List.filter_nil]
  simp
  intro a ha h
  exact hw (h ▸ ha)

/-- C10 counterexample: with pending filter `["x", "y"]`, shift-clicking
`"x"` twice yields `["y", "x"]`, not the original list — the claim that a
double shift-click restores the pending filter to its original value fails. -/
theorem double_shift_click_cex :
    handleWordClick (handleWordClick ["x", "y"] "x" true) "x" true = ["y", "x"] ∧
    handleWordClick (handleWordClick ["x", "y"] "x" true) "x" true ≠ ["x", "y"] := by
  decide

/-- C10 (amended): a plain click replaces the pending filter with exactly the
clicked word; shift-clicking the same word twice restores the pending filter
exactly when the word was not already present, and always restores it as a
set (membership is unchanged). -/
theorem word_click_algebra :
    (∀ (prev : List String) (w : String), handleWordClick prev w false = [w]) ∧
    (∀ (prev : List String) (w : String), w ∉ prev →
      handleWordClick (handleWordClick prev w true) w true = prev) ∧
    (∀ (prev : List String) (w x : String),
      x ∈ handleWordClick (handleWordClick prev w true) w true ↔ x ∈ prev) := by
  refine ⟨fun prev w => rfl, double_toggle_of_not_mem, ?_⟩
  intro prev w x
  by_cases hw : w ∈ prev
  · have hfirst : handleWordClick prev w true = prev.filter (fun a => a ≠ w) := by
      simp [handleWordClick, hw]
    rw [hfirst]
    have hc2 : w ∉ prev.filter (fun a => a ≠ w) := by
      simp [List.mem_filter]
    have hsecond : handleWordClick (prev.filter fun a => a ≠ w) w true =
        prev.filter (fun a => a ≠ w) ++ [w] := by
      simp [handleWordClick, hc2]
    rw [hsecond]
    simp only [List.mem_append, List.mem_filter, List.mem_singleton,
      ne_eq, decide_eq_true_eq]
    constructor
    · rintro (⟨hx, _⟩ | rfl)
      · exact hx
      · exact hw
    · intro hx
      by_cases hxw : x = w
      · exact Or.inr hxw
      · exact Or.inl ⟨hx, hxw⟩
  · rw [double_toggle_of_not_mem prev w hw]

/-- Witness for C10 (amended): double shift-click of `"z"` on `["x", "y"]`
(where `"z"` is absent) restores the list exactly. -/
theorem word_click_algebra_witness :
    handleWordClick (handleWordClick ["x", "y"] "z" true) "z" true = ["x", "y"] :=
  word_click_algebra.2.1 ["x", "y"] "z" (by decide)

/-- C2 counterexample: the two texts `"bbbb cccc"` and `"cccc bbbb"` tokenize
to the same multiset of tokens, yet the computed ranked word lists differ —
the comparator `(a, b) => b.value - a.value` breaks ties by first-occurrence
order (the sort is stable), not alphabetically. -/
theorem word_rank_order_dependent_cex :
    (tokenize "bbbb cccc").Perm (tokenize "cccc bbbb") ∧
    wordCloudWords "bbbb cccc" = [("bbbb", 1), ("cccc", 1)] ∧
    wordCloudWords "cccc bbbb" = [("cccc", 1), ("bbbb", 1)] ∧
    wordCloudWords "bbbb cccc" ≠ wordCloudWords "cccc bbbb" := by
  refine ⟨by decide, by decide, by decide, by decide⟩

/-- C2 (amended): the ranked word list is always ordered by descending
occurrence count; ties are broken by the order of first occurrence in the
text (the sort is stable), so reordering the tokens of a text can reorder
tied words, and the list is a deterministic function of the
first-occurrence-ordered counts. -/
theorem word_rank_sorted_desc :
    ∀ text : String,
      (wordCloudWords text).Pairwise (fun a b => b.2 ≤ a.2) ∧
      (∀ text' : String, wordCounts text = wordCounts text' →
        wordCloudWords text = wordCloudWords text') := by
  intro text
  constructor
  · have h := List.sorted_insertionSort wcDescRel (wordCounts text)
    exact List.Pairwise.sublist (List.take_sublist 50 _) h
  · intro text' hc
    unfold wordCloudWords
    rw [hc]

/-- Witness for C2 (amended): the determinism component at two concrete
texts with identical counts. -/
theorem word_rank_sorted_desc_witness :
    wordCloudWords "dddd eeee" = wordCloudWords "dddd  eeee" :=
  (word_rank_sorted_desc "dddd eeee").2 "dddd  eeee" (by decide)

/-! ### Helper lemmas: which words can appear in `wordCounts` -/

/-- A key of `bumpKey l k` is either `k` or a key of `l`. -/
lemma keys_bumpKey [DecidableEq κ] {l : List (κ × Nat)} {w k : κ}
    (h : k ∈ (bumpKey l w).map Prod.fst) : k = w ∨ k ∈ l.map Prod.fst := by
  induction l with
  | nil =>
    simp only [bumpKey, List.map_cons, List.map_nil, List.mem_singleton] at h
    exact Or.inl h
  | cons p rest ih =>
    obtain ⟨k', v⟩ := p
    simp only [bumpKey] at h
    by_cases hk : k' = w
    · rw [if_pos hk] at h
      simp only [List.map_cons, List.mem_cons] at h
      rcases h with h | h
      · exact Or.inr (by simp [h])
      · exact Or.inr (by simp [h])
    · rw [if_neg hk] at h
      simp only [List.map_cons, List.mem_cons] at h
      rcases h with h | h
      · exact Or.inr (by simp [h])
      · rcases ih h with h' | h'
        · exact Or.inl h'
        · exact Or.inr (by simp [h'])

/-- Any key of the counting fold starting from `acc` is a key of `acc` or a
token that passed the `keepWord` guard. -/
lemma keys_countFold {ws : List String} {acc : List (String × Nat)} {k : String}
    (h : k ∈ (ws.foldl (fun acc w => if keepWord w then bumpKey acc w else acc)
      acc).map Prod.fst) :
    k ∈ acc.map Prod.fst ∨ (k ∈ ws ∧ keepWord k = true) := by
  induction ws generalizing acc with
  | nil => exact Or.inl h
  | cons w ws ih =>
    simp only [List.foldl_cons] at h
    rcases ih h with hk | hws
    · by_cases hkeep : keepWord w
      · rw [if_pos hkeep] at hk
        rcases keys_bumpKey hk with h' | h'
        · exact Or.inr ⟨h' ▸ List.mem_cons_self w ws, h' ▸ hkeep⟩
        · exact Or.inl h'
      · rw [if_neg hkeep] at hk
        exact Or.inl hk
    · exact Or.inr ⟨List.mem_cons_of_mem w hws.1, hws.2⟩

/-- Every entry of the ranked word cloud list has a key that is a kept token
of the text. -/
lemma mem_wordCloudWords {text : String} {p : String × Nat}
    (hp : p ∈ wordCloudWords text) :
    p.1 ∈ tokenize text ∧ keepWord p.1 = true := by
  have h1 : p ∈ (wordCounts text).insertionSort wcDescRel :=
    List.mem_of_mem_take hp
  have h2 : p ∈ wordCounts text := (List.mem_insertionSort wcDescRel).1 h1
  have h3 : p.1 ∈ (wordCounts text).map Prod.fst := List.mem_map_of_mem Prod.fst h2
  rcases keys_countFold h3 with h | h
  · simp at h
  · exact h

/-- C5: every word that reaches the word-cloud output passed the counting
guard — it is not a stopword and is longer than the minimum length of 3
characters (so removed tokens contribute no counts). -/
theorem extraction_filters_tokens :
    ∀ (text : String) (p : String × Nat), p ∈ wordCloudWords text →
      stopWords.contains p.1 = false ∧ 3 < p.1.length := by
  intro text p hp
  have h := (mem_wordCloudWords hp).2
  unfold keepWord at h
  simp only [Bool.and_eq_true, decide_eq_true_eq, Bool.not_eq_true'] at h
  exact ⟨h.2, h.1⟩

/-- Witness for C5 at the concrete text `"hello hello"`. -/
theorem extraction_filters_tokens_witness :
    stopWords.contains ("hello", 2).1 = false ∧ 3 < ("hello", 2).1.length :=
  extraction_filters_tokens "hello hello" ("hello", 2) (by decide)

/-! ### Helper lemmas: the characters of a token -/

/-- Every character of a piece produced by `splitAtWs` comes from the input
and is not whitespace. -/
lemma mem_splitAtWs {cs : List Char} : ∀ {piece : List Char},
    piece ∈ splitAtWs cs → ∀ c ∈ piece, c ∈ cs ∧ isWsChar c = false := by
  induction cs with
  | nil =>
    intro piece h c hc
    simp only [splitAtWs, List.mem_singleton] at h
    subst h
    cases hc
  | cons a as ih =>
    intro piece h c hc
    unfold splitAtWs at h
    by_cases ha : isWsChar a
    · rw [if_pos ha] at h
      rcases List.mem_cons.1 h with h' | h'
      · subst h'
        cases hc
      · have := ih h' c hc
        exact ⟨List.mem_cons_of_mem a this.1, this.2⟩
    · rw [if_neg ha] at h
      cases hsp : splitAtWs as with
      | nil =>
        rw [hsp] at h
        simp only [List.mem_singleton] at h
        subst h
        rcases List.mem_singleton.1 hc with rfl
        exact ⟨List.mem_cons_self _ _, by simpa using ha⟩
      | cons t ts =>
        rw [hsp] at h
        rcases List.mem_cons.1 h with h' | h'
        · subst h'
          rcases List.mem_cons.1 hc with rfl | hc'
          · exact ⟨List.mem_cons_self _ _, by simpa using ha⟩
          · have := ih (hsp ▸ List.mem_cons_self t ts) c hc'
            exact ⟨List.mem_cons_of_mem a this.1, this.2⟩
        · have := ih (hsp ▸ List.mem_cons_of_mem t h') c hc
          exact ⟨List.mem_cons_of_mem a this.1, this.2⟩

/-- Every character of a token of `tokenize` is a word character, is not
whitespace, and comes from the lower-cased text. -/
lemma token_char_classes {text w : String} (hw : w ∈ tokenize text) :
    ∀ c ∈ w.data, isWordChar c = true ∧ isWsChar c = false ∧
      c ∈ (jsToLower text).data := by
  obtain ⟨piece, hpiece, rfl⟩ := List.mem_map.1 hw
  intro c hc
  have hc' : c ∈ piece := hc
  have h := mem_splitAtWs hpiece c hc'
  have h2 := List.mem_filter.1 h.1
  refine ⟨?_, h.2, h2.1⟩
  have h4 : isWordChar c = true ∨ isWsChar c = true := by simpa using h2.2
  rcases h4 with h3 | h3
  · exact h3
  · rw [h.2] at h3
    cases h3

/-- Applying `Char.ofNat` to a valid scalar value gives a character with that value. -/
lemma toNat_ofNat_valid {n : Nat} (h : n.isValidChar) :
    (Char.ofNat n).toNat = n := by
  rw [Char.ofNat, dif_pos h]
  rfl

/-- Lower-casing never produces a character in the ASCII uppercase range. -/
lemma jsCharToLower_not_upper (c : Char) :
    ¬(65 ≤ (jsCharToLower c).toNat ∧ (jsCharToLower c).toNat ≤ 90) := by
  unfold jsCharToLower
  by_cases h : 65 ≤ c.toNat ∧ c.toNat ≤ 90
  · rw [if_pos h]
    have hv : (c.toNat + 32).isValidChar := Or.inl (by omega)
    rw [toNat_ofNat_valid hv]
    omega
  · rw [if_neg h]
    exact h

/-- C4 counterexample: the extraction performs no singularization — the text
`"apple apple apples"` produces the two distinct concepts `"apple"` and
`"apples"` with separate counts instead of one combined concept. -/
theorem plural_concepts_not_collapsed_cex :
    wordCloudWords "apple apple apples" = [("apple", 2), ("apples", 1)] ∧
    ("apple" : String) ≠ "apples" := by
  refine ⟨by decide, by decide⟩

/-- C4 (amended): every concept string the extraction produces is made of
lowercase ASCII letters, digits and underscores only — in particular it is
lowercase and contains no surrounding whitespace — but plural forms are not
collapsed into their singular. -/
theorem concepts_lowercase_trimmed :
    ∀ (text : String) (p : String × Nat), p ∈ wordCloudWords text →
      ∀ c ∈ p.1.data,
        (97 ≤ c.toNat ∧ c.toNat ≤ 122) ∨ (48 ≤ c.toNat ∧ c.toNat ≤ 57) ∨
          c = '_' := by
  intro text p hp c hc
  have htok := (mem_wordCloudWords hp).1
  obtain ⟨hword, hws, hmem⟩ := token_char_classes htok c hc
  have hmap : c ∈ text.data.map jsCharToLower := hmem
  obtain ⟨c', hc', rfl⟩ := List.mem_map.1 hmap
  have hnu := jsCharToLower_not_upper c'
  unfold isWordChar at hword
  simp only [Bool.or_eq_true, Bool.and_eq_true, decide_eq_true_eq] at hword
  rcases hword with ((h | h) | h) | h
  · exact absurd h hnu
  · exact Or.inl h
  · exact Or.inr (Or.inl h)
  · exact Or.inr (Or.inr h)

/-- Witness for C4 (amended): the first character of the concept extracted
from `"Hello hello"` is a lowercase letter. -/
theorem concepts_lowercase_trimmed_witness :
    (97 ≤ 'h'.toNat ∧ 'h'.toNat ≤ 122) ∨ (48 ≤ 'h'.toNat ∧ 'h'.toNat ≤ 57) ∨
      'h' = '_' :=
  concepts_lowercase_trimmed "Hello hello" ("hello", 2) (by decide) 'h' (by decide)

/-! ### Helper lemmas for the histogram invariant (C9) -/

/-- Bumping a key raises the total of the counts by one. -/
lemma sum_bumpKey [DecidableEq κ] (l : List (κ × Nat)) (k : κ) :
    ((bumpKey l k).map Prod.snd).sum = (l.map Prod.snd).sum + 1 := by
  induction l with
  | nil => simp [bumpKey]
  | cons p rest ih =>
    obtain ⟨k', v⟩ := p
    by_cases hk : k' = k
    · simp only [bumpKey, if_pos hk, List.map_cons, List.sum_cons]
      omega
    · simp only [bumpKey, if_neg hk, List.map_cons, List.sum_cons, ih]
      omega

/-- The counting fold adds exactly one to the total per screenshot. -/
lemma sum_countFold (ss : List HistShot) : ∀ acc : List (Int × Nat),
    ((ss.foldl (fun acc s => bumpKey acc (dayOf s.created_at)) acc).map
      Prod.snd).sum = (acc.map Prod.snd).sum + ss.length := by
  induction ss with
  | nil => intro acc; simp
  | cons s rest ih =>
    intro acc
    simp only [List.foldl_cons, List.length_cons]
    rw [ih, sum_bumpKey]
    omega

/-- Filling missing days with zero entries does not change the total. -/
lemma sum_fillDays (days : List Int) : ∀ acc : List (Int × Nat),
    ((fillDays acc days).map Prod.snd).sum = (acc.map Prod.snd).sum := by
  induction days with
  | nil => intro acc; rfl
  | cons d rest ih =>
    intro acc
    unfold fillDays
    simp only [List.foldl_cons]
    have step := ih (if hasKey acc d then acc else acc ++ [(d, 0)])
    unfold fillDays at step
    rw [step]
    by_cases hd : hasKey acc d
    · rw [if_pos hd]
    · rw [if_neg hd]
      simp

/-- An existing key stays present through an append. -/
lemma hasKey_append_left [DecidableEq κ] {l : List (κ × Nat)} {k : κ}
    (h : hasKey l k = true) (l' : List (κ × Nat)) :
    hasKey (l ++ l') k = true := by
  unfold hasKey at *
  rw [List.any_append, h, Bool.true_or]

/-- An existing key stays present through the fill loop. -/
lemma hasKey_fillDays_of_hasKey {k : Int} (days : List Int) :
    ∀ acc : List (Int × Nat), hasKey acc k = true →
      hasKey (fillDays acc days) k = true := by
  induction days with
  | nil => intro acc h; exact h
  | cons d rest ih =>
    intro acc h
    unfold fillDays
    simp only [List.foldl_cons]
    have hstep : hasKey (if hasKey acc d then acc else acc ++ [(d, 0)]) k = true := by
      by_cases hd : hasKey acc d
      · rwa [if_pos hd]
      · rw [if_neg hd]
        exact hasKey_append_left h _
    exact ih _ hstep

/-- After the fill loop, every listed day is a key of the map. -/
lemma hasKey_fillDays_of_mem {k : Int} (days : List Int) :
    ∀ acc : List (Int × Nat), k ∈ days → hasKey (fillDays acc days) k = true := by
  induction days with
  | nil => intro acc h; cases h
  | cons d rest ih =>
    intro acc h
    unfold fillDays
    simp only [List.foldl_cons]
    rcases List.mem_cons.1 h with rfl | h'
    · have hstep : hasKey (if hasKey acc k then acc else acc ++ [(k, 0)]) k = true := by
        by_cases hd : hasKey acc k
        · rwa [if_pos hd]
        · rw [if_neg hd]
          unfold hasKey
          simp
      exact hasKey_fillDays_of_hasKey rest _ hstep
    · exact ih _ h'

/-- Every day of the inclusive range appears in `eachDay`. -/
lemma mem_eachDay {a b d : Int} (h1 : a ≤ d) (h2 : d ≤ b) : d ∈ eachDay a b := by
  have hd : d = a + Int.ofNat (d - a).toNat := by
    rw [Int.ofNat_eq_coe]
    omega
  rw [hd]
  unfold eachDay
  have hmem : (d - a).toNat ∈ List.range (b - a + 1).toNat :=
    List.mem_range.2 (by omega)
  exact List.mem_map_of_mem (fun i : Nat => a + Int.ofNat i) hmem

/-- A `foldl max` dominates its seed and every list element. -/
lemma le_foldl_max (l : List Nat) : ∀ a : Nat,
    a ≤ l.foldl max a ∧ ∀ v ∈ l, v ≤ l.foldl max a := by
  induction l with
  | nil => intro a; exact ⟨le_refl a, by simp⟩
  | cons b rest ih =>
    intro a
    simp only [List.foldl_cons]
    obtain ⟨h1, h2⟩ := ih (max a b)
    refine ⟨le_trans (le_max_left a b) h1, ?_⟩
    intro v hv
    rcases List.mem_cons.1 hv with rfl | hv'
    · exact le_trans (le_max_right a v) h1
    · exact h2 v hv'

/-- A `foldl max` is either its seed or an element of the list. -/
lemma foldl_max_eq_or_mem (l : List Nat) : ∀ a : Nat,
    l.foldl max a = a ∨ l.foldl max a ∈ l := by
  induction l with
  | nil => intro a; exact Or.inl rfl
  | cons b rest ih =>
    intro a
    simp only [List.foldl_cons]
    rcases ih (max a b) with h | h
    · rcases max_choice a b with hm | hm
      · exact Or.inl (h.trans hm)
      · exact Or.inr (List.mem_cons.2 (Or.inl (h.trans hm)))
    · exact Or.inr (List.mem_cons_of_mem b h)

/-- A list of naturals with positive sum has a positive element. -/
lemma exists_pos_of_sum_pos {l : List Nat} (h : 0 < l.sum) : ∃ v ∈ l, 0 < v := by
  by_contra hc
  push_neg at hc
  have hz : ∀ v ∈ l, v = 0 := fun v hv => Nat.le_zero.1 (hc v hv)
  rw [List.sum_eq_zero hz] at h
  exact lt_irrefl 0 h

/-- C9: for a non-empty screenshot list, the computed `dailyCounts` map has
an entry for every calendar day between the earliest and latest screenshot
day inclusive, its counts sum to the number of screenshots, and `maxCount`
is the maximum daily count (it is one of the counts and dominates all). -/
theorem histogram_daily_counts_invariant :
    ∀ (s0 : HistShot) (rest : List HistShot),
      (∀ d : Int, dayOf (minCreated s0 rest) ≤ d →
        d ≤ dayOf (maxCreated s0 rest) →
        hasKey (dailyCounts s0 rest) d = true) ∧
      ((dailyCounts s0 rest).map Prod.snd).sum = (s0 :: rest).length ∧
      maxCount s0 rest ∈ (dailyCounts s0 rest).map Prod.snd ∧
      ∀ v ∈ (dailyCounts s0 rest).map Prod.snd, v ≤ maxCount s0 rest := by
  intro s0 rest
  have hsum : ((dailyCounts s0 rest).map Prod.snd).sum = (s0 :: rest).length := by
    unfold dailyCounts
    rw [sum_fillDays]
    unfold rawDayCounts
    rw [sum_countFold]
    simp
  refine ⟨?_, hsum, ?_, ?_⟩
  · intro d h1 h2
    unfold dailyCounts
    exact hasKey_fillDays_of_mem _ _ (mem_eachDay h1 h2)
  · rcases foldl_max_eq_or_mem ((dailyCounts s0 rest).map Prod.snd) 0 with h | h
    · have hpos : 0 < ((dailyCounts s0 rest).map Prod.snd).sum := by
        rw [hsum]
        simp
      obtain ⟨v, hv, hvpos⟩ := exists_pos_of_sum_pos hpos
      have hle := (le_foldl_max ((dailyCounts s0 rest).map Prod.snd) 0).2 v hv
      rw [h] at hle
      omega
    · exact h
  · intro v hv
    exact (le_foldl_max ((dailyCounts s0 rest).map Prod.snd) 0).2 v hv

/-- Witness for C9: day 1 — which no screenshot falls on — still gets an
entry, and the concrete count 1 is bounded by `maxCount`. -/
theorem histogram_daily_counts_invariant_witness :
    hasKey (dailyCounts histA [histB]) 1 = true ∧ (1 : Nat) ≤ maxCount histA [histB] :=
  ⟨(histogram_daily_counts_invariant histA [histB]).1 1 (by decide) (by decide),
   (histogram_daily_counts_invariant histA [histB]).2.2.2 1 (by decide)⟩

end ScrAInshots
